import Mathlib

/-!
# Directory tree printer (`main.go`): embedding and verified properties

The program scans a directory (`buildAst`), turns the scan into a forest of
`Node`s, and prints it as a box-drawing diagram (`renderAst`, `dirTree`).

Modelling choices

* Go strings are modelled by Lean `String`s.  Go compares strings byte by byte;
  on UTF-8 text this is the same order as the codepoint-wise lexicographic order
  of `String`.
* `int64` sizes are `Int`, `int` depths and indices are `Nat`; no arithmetic on
  them can overflow in the code under study.
* A slice is a `List`.  `renderAst` sorts its argument in place; the lines it
  returns depend only on the sorted order, which is what the model computes.
  `renderAstSt` and `RenderNodeSt` return, next to the lines, what the slice
  holds after the call.
* A run of the program is `runMain`: it yields the text on standard output, the
  way the run ended and the calls of `dirTree` it made.
* A Go panic is the result `none`.
* The file system is an explicit value (`FsDir`, `FsEntry`) describing what
  `os.Open`, `ReadDir` and `Info` answer.
-/

set_option linter.unusedVariables false

/-! ## Data model -/

/-- The two implementations of the Go interface `Node`: `FileNode{Name, Size}`
and `DirNode{Name, Children}`. -/
inductive Node where
  | file (name : String) (size : Int) : Node
  | dir (name : String) (children : List Node) : Node

namespace Node

/-- Method `GetName` of `FileNode` and `DirNode`. -/
def GetName : Node → String
  | file name _ => name
  | dir name _ => name

/-- Method `IsDir` of `FileNode` (false) and `DirNode` (true). -/
def IsDir : Node → Bool
  | file _ _ => false
  | dir _ _ => true

end Node

/-! ## Rendering -/

/-- Function `getIndent`: the depth is ignored, the result is one of two markers. -/
def getIndent (depth : Nat) (isLast : Bool) : String :=
  let result := ""
  if isLast then result ++ "└───" else result ++ "├───"

/-- The verb `%d` of `fmt.Sprintf` on an integer: its decimal representation. -/
def sprintfD (i : Int) : String :=
  if i < 0 then "-" ++ Nat.repr i.natAbs else Nat.repr i.natAbs

/-- The comparison closure handed to `sort.Slice` in `renderAst`:
`ast[i].GetName() < ast[j].GetName()`. -/
def less (a b : Node) : Bool :=
  decide (a.GetName < b.GetName)

/-- Insertion of `n` into a list ordered by `less`, in front of the first element
that is not `less` than `n`. -/
def insertSorted (n : Node) : List Node → List Node
  | [] => [n]
  | m :: rest => if less m n then m :: insertSorted n rest else n :: m :: rest

/-- The call `sort.Slice(ast, less)`.  The sorting routine belongs to the Go
standard library; it reorders the slice so that it ascends with respect to
`less`.  It is modelled by insertion sort, the routine the library itself runs on
short slices.  When the names are pairwise distinct the ascending arrangement
is unique (`sortSlice_unique`), so the choice of routine does not matter. -/
def sortSlice : List Node → List Node
  | [] => []
  | n :: rest => insertSorted n (sortSlice rest)

/-- Membership in `insertSorted`. -/
theorem mem_insertSorted {a n : Node} {l : List Node} :
    a ∈ insertSorted n l ↔ a = n ∨ a ∈ l := by
  induction l with
  | nil => simp [insertSorted]
  | cons m rest ih =>
    unfold insertSorted
    split <;> simp [ih, or_left_comm]

/-- Sorting keeps exactly the elements of the slice. -/
theorem mem_sortSlice {a : Node} {l : List Node} : a ∈ sortSlice l ↔ a ∈ l := by
  induction l with
  | nil => simp [sortSlice]
  | cons m rest ih => simp [sortSlice, mem_insertSorted, ih]

mutual
/-- Methods `FileNode.RenderNode` and `DirNode.RenderNode`. -/
def RenderNode (n : Node) (depth : Nat) (isLast : Bool) : List String :=
  match n with
  | .file name size =>
    let size := if size > 0 then sprintfD size ++ "b" else "empty"
    let line := getIndent depth isLast ++ name ++ " (" ++ size ++ ")"
    [line]
  | .dir name children =>
    let lines := [getIndent depth isLast ++ name]
    let subLines := renderAst children (depth + 1)
    let subLines := subLines.map fun subLine =>
      if !isLast then "│\t" ++ subLine else "\t" ++ subLine
    lines ++ subLines
termination_by sizeOf n
decreasing_by
  all_goals simp_wf
/-- Function `renderAst`: sort the siblings by name, then append the lines of
every sibling, the one at index `len(ast)-1` being rendered as the last one. -/
def renderAst (ast : List Node) (depth : Nat) : List String :=
  let ast := sortSlice ast
  (ast.attach.enum.map fun p =>
    let isLast := p.1 == ast.length - 1
    RenderNode p.2.1 depth isLast).flatten
termination_by sizeOf ast
decreasing_by
  all_goals simp_wf
  have := List.sizeOf_lt_of_mem (mem_sortSlice.mp p.2.2)
  omega
end

/-- Function `strings.Join`. -/
def stringsJoin (elems : List String) (sep : String) : String :=
  sep.intercalate elems

/-! ## Scanning the file system -/

mutual
/-- What the file system answers for one directory path: whether `os.Open` fails,
the entries `ReadDir(0)` returns, and whether `ReadDir` reports an error. -/
inductive FsDir where
  | mk (openErr : Bool) (elements : List FsEntry) (readErr : Bool) : FsDir
/-- One `fs.DirEntry`: an entry with `IsDir()` false, with the outcome of `Info()`
(`none` when it fails, else the size), or an entry with `IsDir()` true, with what
the file system answers when that directory is opened in turn. -/
inductive FsEntry where
  | file (name : String) (info : Option Int) : FsEntry
  | dir (name : String) (d : FsDir) : FsEntry
end

mutual
/-- Function `buildAst`.  A failing `os.Open` panics; the error of `ReadDir` is
assigned and never looked at. -/
def buildAst : FsDir → Bool → Option (List Node)
  | .mk openErr elements _, printFiles =>
    if openErr then none else buildLoop elements printFiles
/-- The loop `for _, el := range elements` of `buildAst`.  `Info()` is called
only when files are printed; when it fails, `info.Size()` panics. -/
def buildLoop : List FsEntry → Bool → Option (List Node)
  | [], _ => some []
  | .dir name d :: rest, printFiles =>
    match buildAst d printFiles with
    | none => none
    | some children =>
      match buildLoop rest printFiles with
      | none => none
      | some ast => some (.dir name children :: ast)
  | .file name info :: rest, printFiles =>
    if printFiles then
      match info with
      | none => none
      | some size =>
        match buildLoop rest printFiles with
        | none => none
        | some ast => some (.file name size :: ast)
    else buildLoop rest printFiles
end

/-- Function `dirTree`, with the writer modelled by the text written to it so
far.  The result is the text after the call and the returned error (`none` is
`nil`); a panic of `buildAst` gives `none`. -/
def dirTree (out : String) (path : FsDir) (printFiles : Bool) :
    Option (String × Option String) :=
  match buildAst path printFiles with
  | none => none
  | some ast =>
    let tree := stringsJoin (renderAst ast 0) "\n"
    some (out ++ tree ++ "\n", none)

/-! ## Vocabulary of the specification -/

/-- The branch marker of a line: "└───" on the last sibling, "├───" otherwise. -/
def marker (isLast : Bool) : String :=
  if isLast then "└───" else "├───"

/-- The size label of a file: the decimal size followed by "b", or "empty". -/
def sizeLabel (size : Int) : String :=
  if size > 0 then sprintfD size ++ "b" else "empty"

/-- The line that reports a node among its siblings (no ancestor in front):
marker and name, and for a file the size label in parentheses. -/
def nodeLine : Node → Bool → String
  | .file name size, isLast => marker isLast ++ name ++ " (" ++ sizeLabel size ++ ")"
  | .dir name _, isLast => marker isLast ++ name

/-- What one ancestor directory puts in front of the lines below it: a tab when
the ancestor is the last sibling, a vertical bar and a tab otherwise. -/
def ancestorLead (isLast : Bool) : String :=
  if isLast then "\t" else "│\t"

/-- Sibling names are pairwise distinct at every level of the forest, as they
are in every directory listing. -/
def SiblingsDistinct : List Node → Prop
  | [] => True
  | .file name _ :: rest => (∀ m ∈ rest, name ≠ m.GetName) ∧ SiblingsDistinct rest
  | .dir name cs :: rest =>
    (∀ m ∈ rest, name ≠ m.GetName) ∧ SiblingsDistinct cs ∧ SiblingsDistinct rest

/-- One node of a forest as the diagram shows it: the last/not-last status of
its ancestor directories, from the root down, the node, and its own status. -/
structure Entry where
  ancestors : List Bool
  node : Node
  isLast : Bool

mutual
/-- The entries of one node and of everything below it. -/
def entriesNode (n : Node) (isLast : Bool) : List Entry :=
  match n with
  | .file name size => [⟨[], .file name size, isLast⟩]
  | .dir name cs =>
    ⟨[], .dir name cs, isLast⟩ ::
      (entries cs).map fun e => ⟨isLast :: e.ancestors, e.node, e.isLast⟩
termination_by sizeOf n
decreasing_by
  all_goals simp_wf
/-- The nodes of a forest in display order: the siblings sorted by name, each
directory followed by its descendants.  A sibling is last when it stands at the
final position of the sorted sibling sequence. -/
def entries (ast : List Node) : List Entry :=
  let sorted := sortSlice ast
  (sorted.attach.enum.map fun p =>
    entriesNode p.2.1 (p.1 == sorted.length - 1)).flatten
termination_by sizeOf ast
decreasing_by
  all_goals simp_wf
  have := List.sizeOf_lt_of_mem (mem_sortSlice.mp p.2.2)
  omega
end

/-- The text in front of a line: one `ancestorLead` per ancestor, outermost
ancestor first. -/
def ancestorsLead : List Bool → String
  | [] => ""
  | a :: rest => ancestorLead a ++ ancestorsLead rest

/-- The line the specification assigns to an entry. -/
def Entry.line (e : Entry) : String :=
  ancestorsLead e.ancestors ++ nodeLine e.node e.isLast

/-- Two forests hold the same nodes up to the order in which the entries are
listed, at every level: the relation generated by reordering the children of a
directory, exchanging two neighbours, and chaining. -/
inductive PermTree : List Node → List Node → Prop
  | nil : PermTree [] []
  | file (name : String) (size : Int) {l l1 : List Node} :
      PermTree l l1 → PermTree (.file name size :: l) (.file name size :: l1)
  | dir (name : String) {cs cs1 l l1 : List Node} :
      PermTree cs cs1 → PermTree l l1 → PermTree (.dir name cs :: l) (.dir name cs1 :: l1)
  | swap (a b : Node) (l : List Node) : PermTree (a :: b :: l) (b :: a :: l)
  | trans {l1 l2 l3 : List Node} : PermTree l1 l2 → PermTree l2 l3 → PermTree l1 l3

/-- Two nodes that carry the same name and render to the same lines. -/
def RenderEq (a b : Node) : Prop :=
  a.GetName = b.GetName ∧ ∀ d isLast, RenderNode a d isLast = RenderNode b d isLast

mutual
/-- A directory of the file system is readable when it opens, its listing
reports no error, and the same holds for everything below it. -/
def FsDir.Readable : FsDir → Prop
  | .mk openErr elements readErr =>
    openErr = false ∧ readErr = false ∧ entriesReadable elements
/-- Every entry of a listing is readable: `Info()` answers for every file, and
every directory is readable. -/
def entriesReadable : List FsEntry → Prop
  | [] => True
  | .file _ info :: rest => info.isSome = true ∧ entriesReadable rest
  | .dir _ d :: rest => d.Readable ∧ entriesReadable rest
end

/-- The forest without its files: every `FileNode` is deleted at every level,
the directories keep their names, nesting and relative order. -/
def dropFiles : List Node → List Node
  | [] => []
  | .file _ _ :: rest => dropFiles rest
  | .dir name cs :: rest => .dir name (dropFiles cs) :: dropFiles rest

/-- No `FileNode` occurs in the forest, at any depth. -/
def noFileNode : List Node → Bool
  | [] => true
  | .file _ _ :: _ => false
  | .dir _ cs :: rest => noFileNode cs && noFileNode rest

/-- The directories of a forest, at every depth, in the order of the scan. -/
def dirNames : List Node → List String
  | [] => []
  | .file _ _ :: rest => dirNames rest
  | .dir name cs :: rest => name :: (dirNames cs ++ dirNames rest)

/-- An empty directory that opens and lists without error. -/
def emptyDir : FsDir :=
  .mk false [] false

/-- The node `buildAst` makes of a listing entry that is an empty directory. -/
def emptyDirNode : FsEntry → Node
  | .dir name _ => .dir name []
  | .file name _ => .file name 0

/-- The name of a listing entry, `el.Name()`. -/
def FsEntry.Name : FsEntry → String
  | .file name _ => name
  | .dir name _ => name

mutual
/-- The names listed in a directory are pairwise distinct, here and in every
directory below: the invariant of a directory listing. -/
def FsDir.NamesDistinct : FsDir → Prop
  | .mk _ elements _ => entriesDistinct elements
/-- The names of the entries are pairwise distinct, at this level and below. -/
def entriesDistinct : List FsEntry → Prop
  | [] => True
  | .file name _ :: rest => (∀ e ∈ rest, name ≠ e.Name) ∧ entriesDistinct rest
  | .dir name d :: rest =>
    (∀ e ∈ rest, name ≠ e.Name) ∧ d.NamesDistinct ∧ entriesDistinct rest
end

/-! ## The program -/

/-- The text `fmt.Println` prints for a slice of strings, without the line
break: the elements separated by blanks, in square brackets. -/
def sprintArgs (osArgs : List String) : String :=
  "[" ++ " ".intercalate osArgs ++ "]"

/-- How a run of the program ends: `main` returns, or it panics with the usage
message, or a panic is raised inside `buildAst` while `dirTree` runs, or `main`
panics with the error `dirTree` returned. -/
inductive Exit where
  | returned : Exit
  | usagePanic : Exit
  | scanPanic : Exit
  | errorPanic (msg : String) : Exit

/-- What a run of the program leaves behind: the text on standard output, the
way it ended, and the calls of `dirTree` it made (path and `printFiles`). -/
structure Run where
  stdout : String
  exit : Exit
  calls : List (String × Bool)

/-- Function `main` of the source (Lean keeps the name `main` for its own entry
point), for the argument vector `os.Args` and a file system that tells what is
found under a path.  Standard output starts empty. -/
def runMain (osArgs : List String) (fs : String → FsDir) : Run :=
  let out := sprintArgs osArgs ++ "\n"
  if !(osArgs.length == 2 || osArgs.length == 3) then
    ⟨out, .usagePanic, []⟩
  else
    let path := osArgs.getD 1 ""
    let printFiles := osArgs.length == 3 && osArgs.getD 2 "" == "-f"
    match dirTree out (fs path) printFiles with
    | none => ⟨out, .scanPanic, [(path, printFiles)]⟩
    | some (out, none) => ⟨out, .returned, [(path, printFiles)]⟩
    | some (out, some err) => ⟨out, .errorPanic err, [(path, printFiles)]⟩

mutual
/-- The scan meets no file: every entry, at every level, is a directory. -/
def FsDir.OnlyDirs : FsDir → Prop
  | .mk _ elements _ => entriesOnlyDirs elements
/-- Every entry of the listing is a directory that holds directories only. -/
def entriesOnlyDirs : List FsEntry → Prop
  | [] => True
  | .file _ _ :: _ => False
  | .dir _ d :: rest => d.OnlyDirs ∧ entriesOnlyDirs rest
end

/-- The number of nodes of a forest: every file and every directory, at every
depth. -/
def countNodes : List Node → Nat
  | [] => 0
  | .file _ _ :: rest => 1 + countNodes rest
  | .dir _ cs :: rest => 1 + countNodes cs + countNodes rest

mutual
/-- Method `RenderNode` with its effect on memory: the lines, and the node as
it stands after the call.  The children slice of a directory shares its
backing array with the receiver, so what `renderAst` does to it stays. -/
def RenderNodeSt (n : Node) (depth : Nat) (isLast : Bool) : List String × Node :=
  match n with
  | .file name size => (RenderNode (.file name size) depth isLast, .file name size)
  | .dir name children =>
    let r := renderAstSt children (depth + 1)
    let subLines := r.1.map fun subLine =>
      if !isLast then "│\t" ++ subLine else "\t" ++ subLine
    ((getIndent depth isLast ++ name) :: subLines, .dir name r.2)
termination_by sizeOf n
decreasing_by
  all_goals simp_wf
/-- Function `renderAst` with its effect on memory: the lines, and the content
of the slice passed in as it stands after the call.  `sort.Slice` reorders the
slice in place, then every element is rendered in turn. -/
def renderAstSt (ast : List Node) (depth : Nat) : List String × List Node :=
  let ast := sortSlice ast
  let rs := ast.attach.enum.map fun p =>
    RenderNodeSt p.2.1 depth (p.1 == ast.length - 1)
  ((rs.map Prod.fst).flatten, rs.map Prod.snd)
termination_by sizeOf ast
decreasing_by
  all_goals simp_wf
  have := List.sizeOf_lt_of_mem (mem_sortSlice.mp p.2.2)
  omega
end

/-- Every sibling list of the forest, at every level, ascends by name. -/
def AscendingTree : List Node → Prop
  | [] => True
  | .file name _ :: rest => (∀ m ∈ rest, name ≤ m.GetName) ∧ AscendingTree rest
  | .dir name cs :: rest =>
    (∀ m ∈ rest, name ≤ m.GetName) ∧ AscendingTree cs ∧ AscendingTree rest

/-- The number of nodes in one node and below it. -/
def nodeWeight : Node → Nat
  | .file _ _ => 1
  | .dir _ cs => 1 + countNodes cs

mutual
/-- Some directory of the tree cannot be opened: the root, or a directory listed
at some level below it. -/
def FsDir.OpenFails : FsDir → Prop
  | .mk openErr elements _ => openErr = true ∨ entriesOpenFail elements
/-- Some directory listed here, or below, cannot be opened. -/
def entriesOpenFail : List FsEntry → Prop
  | [] => False
  | .file _ _ :: rest => entriesOpenFail rest
  | .dir _ d :: rest => d.OpenFails ∨ entriesOpenFail rest
end

/-! ## Unfolding equations -/

/-- Unfolding of `RenderNode` on a file. -/
theorem RenderNode_file_eq (name : String) (size : Int) (depth : Nat) (isLast : Bool) :
    RenderNode (.file name size) depth isLast =
      [getIndent depth isLast ++ name ++ " (" ++
        (if size > 0 then sprintfD size ++ "b" else "empty") ++ ")"] := by
  rw [RenderNode]

/-- Unfolding of `RenderNode` on a directory. -/
theorem RenderNode_dir_eq (name : String) (children : List Node) (depth : Nat)
    (isLast : Bool) :
    RenderNode (.dir name children) depth isLast =
      (getIndent depth isLast ++ name) ::
        (renderAst children (depth + 1)).map fun subLine =>
          if !isLast then "│\t" ++ subLine else "\t" ++ subLine := by
  rw [RenderNode]; rfl

/-- Unfolding of `renderAst`, without the membership bookkeeping. -/
theorem renderAst_eq (ast : List Node) (depth : Nat) :
    renderAst ast depth =
      ((sortSlice ast).enum.map fun p =>
        RenderNode p.2 depth (p.1 == (sortSlice ast).length - 1)).flatten := by
  rw [renderAst]
  simp only
  congr 1
  generalize sortSlice ast = l
  generalize l.length - 1 = k
  have h : l.enum = l.attach.enum.map (fun p => (p.1, p.2.1)) := by
    conv_lhs => rw [← List.attach_map_subtype_val l]
    rw [List.enum_map]
    rfl
  rw [h, List.map_map]
  rfl

/-- The marker of `getIndent`. -/
theorem getIndent_eq (depth : Nat) (isLast : Bool) :
    getIndent depth isLast = if isLast then "└───" else "├───" := by
  cases isLast <;> rfl

/-! ## Sorting -/

/-- Inserting into a list adds exactly the inserted node. -/
theorem insertSorted_perm (n : Node) (l : List Node) : (insertSorted n l).Perm (n :: l) := by
  induction l with
  | nil => simp [insertSorted]
  | cons m rest ih =>
    unfold insertSorted
    split
    · exact (ih.cons m).trans (List.Perm.swap n m rest)
    · exact List.Perm.refl _

/-- The sorted slice holds the same nodes as the slice. -/
theorem sortSlice_perm (l : List Node) : (sortSlice l).Perm l := by
  induction l with
  | nil => exact List.Perm.refl _
  | cons n rest ih => exact (insertSorted_perm n _).trans (ih.cons n)

/-- Sorting keeps the length. -/
theorem sortSlice_length (l : List Node) : (sortSlice l).length = l.length :=
  (sortSlice_perm l).length_eq

/-- Insertion keeps a list ascending by name. -/
theorem insertSorted_ascending (n : Node) (l : List Node)
    (h : l.Pairwise (fun a b => a.GetName ≤ b.GetName)) :
    (insertSorted n l).Pairwise (fun a b => a.GetName ≤ b.GetName) := by
  induction l with
  | nil => simp [insertSorted]
  | cons m rest ih =>
    rw [List.pairwise_cons] at h
    unfold insertSorted
    split
    · rename_i hlt
      rw [List.pairwise_cons]
      refine ⟨?_, ih h.2⟩
      intro a ha
      rcases mem_insertSorted.mp ha with rfl | ha
      · exact le_of_lt (by simpa [less] using hlt)
      · exact h.1 a ha
    · rename_i hlt
      have hnm : n.GetName ≤ m.GetName := by
        have : ¬ m.GetName < n.GetName := by simpa [less] using hlt
        exact not_lt.mp this
      rw [List.pairwise_cons]
      refine ⟨?_, List.pairwise_cons.mpr h⟩
      intro a ha
      rcases List.mem_cons.mp ha with rfl | ha
      · exact hnm
      · exact le_trans hnm (h.1 a ha)

/-- The sorted slice ascends by name. -/
theorem sortSlice_ascending (l : List Node) :
    (sortSlice l).Pairwise (fun a b => a.GetName ≤ b.GetName) := by
  induction l with
  | nil => simp [sortSlice]
  | cons n rest ih => exact insertSorted_ascending n _ ih

/-- With pairwise distinct names the sorted slice ascends strictly. -/
theorem sortSlice_strict (l : List Node)
    (h : l.Pairwise (fun a b => a.GetName ≠ b.GetName)) :
    (sortSlice l).Pairwise (fun a b => a.GetName < b.GetName) := by
  have hne : (sortSlice l).Pairwise (fun a b => a.GetName ≠ b.GetName) :=
    ((sortSlice_perm l).pairwise_iff (fun {a b} hab => Ne.symm hab)).mpr h
  exact (List.Pairwise.and (sortSlice_ascending l) hne).imp
    (fun {a b} hab => lt_of_le_of_ne hab.1 hab.2)

/-- Distinct sibling names, read at the top level. -/
theorem SiblingsDistinct.top {ast : List Node} (h : SiblingsDistinct ast) :
    ast.Pairwise (fun a b => a.GetName ≠ b.GetName) := by
  induction ast with
  | nil => exact List.Pairwise.nil
  | cons n rest ih =>
    cases n with
    | file name size =>
      simp only [SiblingsDistinct] at h
      exact List.pairwise_cons.mpr ⟨h.1, ih h.2⟩
    | dir name cs =>
      simp only [SiblingsDistinct] at h
      exact List.pairwise_cons.mpr ⟨h.1, ih h.2.2⟩

/-- Distinct sibling names pass to the children of every directory. -/
theorem SiblingsDistinct.children {ast : List Node} (h : SiblingsDistinct ast)
    {name : String} {cs : List Node} (hm : Node.dir name cs ∈ ast) : SiblingsDistinct cs := by
  induction ast with
  | nil => cases hm
  | cons n rest ih =>
    cases n with
    | file name1 size =>
      simp only [SiblingsDistinct] at h
      rcases List.mem_cons.mp hm with heq | hm
      · cases heq
      · exact ih h.2 hm
    | dir name1 cs1 =>
      simp only [SiblingsDistinct] at h
      rcases List.mem_cons.mp hm with heq | hm
      · cases heq; exact h.2.1
      · exact ih h.2.2 hm

/-- The first line of every rendered node is the line that reports it. -/
theorem RenderNode_head (n : Node) (d : Nat) (isLast : Bool) :
    ∃ below, RenderNode n d isLast = nodeLine n isLast :: below := by
  cases n with
  | file name size => exact ⟨[], by rw [RenderNode_file_eq, getIndent_eq]; rfl⟩
  | dir name cs => exact ⟨_, by rw [RenderNode_dir_eq, getIndent_eq]; rfl⟩

/-! ## Induction over forests -/

/-- A property of forests holds everywhere once it passes from the children of
every directory of a forest to the forest. -/
theorem forest_induction {P : List Node → Prop}
    (step : ∀ ast, (∀ name cs, Node.dir name cs ∈ ast → P cs) → P ast) :
    ∀ ast, P ast := by
  have key : ∀ (k : Nat) (ast : List Node), sizeOf ast < k → P ast := by
    intro k
    induction k with
    | zero => intro ast h; omega
    | succ k ih =>
      intro ast h
      apply step
      intro name cs hm
      have h1 := List.sizeOf_lt_of_mem hm
      have h2 : sizeOf cs < sizeOf (Node.dir name cs) := by simp
      exact ih cs (by omega)
  exact fun ast => key (sizeOf ast + 1) ast (Nat.lt_succ_self _)

/-- Two indexed traversals of a list agree when their bodies agree on its elements. -/
theorem enumFrom_flatten_congr {α : Type} (l : List Node) (k : Nat)
    (f g : Nat × Node → List α) (h : ∀ p, p.2 ∈ l → f p = g p) :
    ((l.enumFrom k).map f).flatten = ((l.enumFrom k).map g).flatten := by
  congr 1
  apply List.map_congr_left
  intro p hp
  exact h p (List.snd_mem_of_mem_enumFrom hp)

/-- Unfolding of `entriesNode` on a file. -/
theorem entriesNode_file_eq (name : String) (size : Int) (isLast : Bool) :
    entriesNode (.file name size) isLast = [⟨[], .file name size, isLast⟩] := by
  rw [entriesNode]

/-- Unfolding of `entriesNode` on a directory. -/
theorem entriesNode_dir_eq (name : String) (cs : List Node) (isLast : Bool) :
    entriesNode (.dir name cs) isLast =
      ⟨[], .dir name cs, isLast⟩ ::
        (entries cs).map fun e => ⟨isLast :: e.ancestors, e.node, e.isLast⟩ := by
  rw [entriesNode]

/-- Unfolding of `entries`, without the membership bookkeeping. -/
theorem entries_eq (ast : List Node) :
    entries ast =
      ((sortSlice ast).enum.map fun p =>
        entriesNode p.2 (p.1 == (sortSlice ast).length - 1)).flatten := by
  rw [entries]
  congr 1
  generalize sortSlice ast = l
  generalize l.length - 1 = k
  have h : l.enum = l.attach.enum.map (fun p => (p.1, p.2.1)) := by
    conv_lhs => rw [← List.attach_map_subtype_val l]
    rw [List.enum_map]
    rfl
  rw [h, List.map_map]
  rfl

/-- The lines of a rendered node are the lines of its entries, provided this
holds for the forest of its children. -/
theorem RenderNode_eq_lines (n : Node) (d : Nat) (isLast : Bool)
    (ih : ∀ name cs, n = Node.dir name cs →
      ∀ d, renderAst cs d = (entries cs).map Entry.line) :
    RenderNode n d isLast = (entriesNode n isLast).map Entry.line := by
  cases n with
  | file name size =>
    rw [RenderNode_file_eq, entriesNode_file_eq, getIndent_eq]
    simp [Entry.line, ancestorsLead, nodeLine, marker, sizeLabel]
  | dir name cs =>
    rw [RenderNode_dir_eq, entriesNode_dir_eq, getIndent_eq, ih name cs rfl]
    simp only [List.map_cons, List.map_map]
    congr 1
    apply List.map_congr_left
    intro e _
    simp only [Function.comp, Entry.line, ancestorsLead]
    cases isLast <;> simp [ancestorLead, String.append_assoc]

/-- The output of `renderAst` is, line by line, what the entries prescribe. -/
theorem renderAst_eq_lines : ∀ (ast : List Node) (d : Nat),
    renderAst ast d = (entries ast).map Entry.line := by
  intro ast
  refine forest_induction
    (P := fun ast => ∀ d, renderAst ast d = (entries ast).map Entry.line)
    (fun ast ih => ?_) ast
  intro d
  rw [renderAst_eq, entries_eq, List.map_flatten, List.map_map]
  apply enumFrom_flatten_congr
  intro p hp
  apply RenderNode_eq_lines
  intro name cs hn
  exact ih name cs (by rw [← hn]; exact mem_sortSlice.mp hp)

/-! ## Strings -/

/-- No text begins with both markers. -/
theorem marker_clash (t t1 : String) : "├───" ++ t ≠ "└───" ++ t1 := by
  intro h
  have h1 := congrArg String.data h
  simp [String.data_append] at h1

/-- Every reporting line is its marker followed by a remainder. -/
theorem nodeLine_marker (n : Node) (isLast : Bool) :
    ∃ tail, nodeLine n isLast = marker isLast ++ tail := by
  cases n with
  | file name size =>
    exact ⟨name ++ (" (" ++ (sizeLabel size ++ ")")), by
      simp [nodeLine, String.append_assoc]⟩
  | dir name cs => exact ⟨name, rfl⟩

/-- A text that starts with the marker of a status starts with "└───" exactly
when the status is last. -/
theorem marker_last_iff (isLast : Bool) (tail : String) :
    (∃ t, marker isLast ++ tail = "└───" ++ t) ↔ isLast = true := by
  cases isLast with
  | true => simp [marker]
  | false =>
    simp only [marker, Bool.false_eq_true, if_false, iff_false, not_exists]
    exact fun t => marker_clash tail t

/-- A text that starts with the marker of a status starts with "├───" exactly
when the status is not last. -/
theorem marker_inner_iff (isLast : Bool) (tail : String) :
    (∃ t, marker isLast ++ tail = "├───" ++ t) ↔ isLast = false := by
  cases isLast with
  | false => simp [marker]
  | true =>
    simp only [marker, if_true, Bool.true_eq_false, iff_false, not_exists]
    exact fun t h => marker_clash t tail h.symm

/-! ## Independence of the enumeration order -/

/-- A strictly ascending arrangement of the nodes of a slice is the sorted slice:
with distinct names the result of sorting does not depend on the routine. -/
theorem sortSlice_unique (l s : List Node) (hp : s.Perm l)
    (hs : s.Pairwise (fun a b => a.GetName < b.GetName)) : s = sortSlice l := by
  haveI : IsAntisymm Node (fun a b => a.GetName < b.GetName) :=
    ⟨fun a b h1 h2 => absurd h2 (lt_asymm h1)⟩
  have hne : l.Pairwise (fun a b => a.GetName ≠ b.GetName) :=
    (hp.pairwise_iff (fun {a b} hab => Ne.symm hab)).mp (hs.imp (fun {a b} hab => ne_of_lt hab))
  exact List.eq_of_perm_of_sorted (hp.trans (sortSlice_perm l).symm) hs (sortSlice_strict l hne)

/-- Unfolding of `SiblingsDistinct` on a list that starts with a file. -/
theorem siblingsDistinct_file (name : String) (size : Int) (rest : List Node) :
    SiblingsDistinct (.file name size :: rest) ↔
      (∀ m ∈ rest, name ≠ m.GetName) ∧ SiblingsDistinct rest := by
  simp only [SiblingsDistinct]

/-- Unfolding of `SiblingsDistinct` on a list that starts with a directory. -/
theorem siblingsDistinct_dir (name : String) (cs rest : List Node) :
    SiblingsDistinct (.dir name cs :: rest) ↔
      (∀ m ∈ rest, name ≠ m.GetName) ∧ SiblingsDistinct cs ∧ SiblingsDistinct rest := by
  simp only [SiblingsDistinct]

/-- Distinct sibling names, split into the top level and the levels below. -/
theorem siblingsDistinct_iff (ast : List Node) :
    SiblingsDistinct ast ↔
      ast.Pairwise (fun a b => a.GetName ≠ b.GetName) ∧
        ∀ name cs, Node.dir name cs ∈ ast → SiblingsDistinct cs := by
  constructor
  · exact fun h => ⟨h.top, fun name cs hm => h.children hm⟩
  · intro h
    induction ast with
    | nil => simp only [SiblingsDistinct]
    | cons n rest ih =>
      obtain ⟨h1, h2⟩ := h
      rw [List.pairwise_cons] at h1
      have hrest := ih ⟨h1.2, fun name cs hm => h2 name cs (List.mem_cons_of_mem _ hm)⟩
      cases n with
      | file name size => exact (siblingsDistinct_file _ _ _).mpr ⟨h1.1, hrest⟩
      | dir name cs =>
        exact (siblingsDistinct_dir _ _ _).mpr
          ⟨h1.1, h2 name cs (List.mem_cons_self _ _), hrest⟩

/-- Reordering at every level keeps the names listed at the top level. -/
theorem PermTree.names_perm {l l1 : List Node} (h : PermTree l l1) :
    (l.map Node.GetName).Perm (l1.map Node.GetName) := by
  induction h with
  | nil => exact List.Perm.refl _
  | file name size _ ih => exact ih.cons _
  | dir name _ _ _ ih => exact ih.cons _
  | swap a b l => exact List.Perm.swap _ _ _
  | trans _ _ ih1 ih2 => exact ih1.trans ih2

/-- Every node renders like itself. -/
theorem RenderEq.refl (a : Node) : RenderEq a a :=
  ⟨rfl, fun _ _ => rfl⟩

/-- Chaining of `RenderEq` along two aligned lists. -/
theorem forall₂_renderEq_trans {s1 s2 s3 : List Node}
    (h12 : List.Forall₂ RenderEq s1 s2) (h23 : List.Forall₂ RenderEq s2 s3) :
    List.Forall₂ RenderEq s1 s3 := by
  induction h12 generalizing s3 with
  | nil => cases h23; exact List.Forall₂.nil
  | cons hab _ ih =>
    cases h23 with
    | cons hbc hrest =>
      exact List.Forall₂.cons
        ⟨hab.1.trans hbc.1, fun d isLast => (hab.2 d isLast).trans (hbc.2 d isLast)⟩
        (ih hrest)

/-- Insertion respects `RenderEq`: the place of insertion depends on names only. -/
theorem insertSorted_renderEq {x x1 : Node} {s s1 : List Node} (hx : RenderEq x x1)
    (hs : List.Forall₂ RenderEq s s1) :
    List.Forall₂ RenderEq (insertSorted x s) (insertSorted x1 s1) := by
  induction hs with
  | nil => exact List.Forall₂.cons hx List.Forall₂.nil
  | cons hab hrest ih =>
    rename_i a b l l1
    have hless : less a x = less b x1 := by simp [less, hab.1, hx.1]
    unfold insertSorted
    rw [hless]
    split
    · exact List.Forall₂.cons hab ih
    · exact List.Forall₂.cons hx (List.Forall₂.cons hab hrest)

/-- Aligned lists of nodes that render alike give the same loop output. -/
theorem renderLoop_congr {s s1 : List Node} (hs : List.Forall₂ RenderEq s s1)
    (d k K : Nat) :
    ((s.enumFrom k).map fun p => RenderNode p.2 d (p.1 == K)).flatten =
      ((s1.enumFrom k).map fun p => RenderNode p.2 d (p.1 == K)).flatten := by
  induction hs generalizing k with
  | nil => rfl
  | cons hab _ ih =>
    simp only [List.enumFrom_cons, List.map_cons, List.flatten_cons]
    rw [hab.2, ih]

/-- Forests whose sorted sibling lists render alike have the same output. -/
theorem renderAst_congr {ast ast1 : List Node}
    (hs : List.Forall₂ RenderEq (sortSlice ast) (sortSlice ast1)) (d : Nat) :
    renderAst ast d = renderAst ast1 d := by
  rw [renderAst_eq, renderAst_eq, ← hs.length_eq]
  exact renderLoop_congr hs d 0 _

/-- Reordering at every level keeps the names distinct and makes the sorted
sibling lists render alike, position by position. -/
theorem PermTree.sorted_renderEq {l l1 : List Node} (h : PermTree l l1) :
    SiblingsDistinct l →
      SiblingsDistinct l1 ∧ List.Forall₂ RenderEq (sortSlice l) (sortSlice l1) := by
  induction h with
  | nil => exact fun hd => ⟨hd, List.Forall₂.nil⟩
  | file name size hp ih =>
    intro hd
    obtain ⟨hd1, hd2⟩ := (siblingsDistinct_file _ _ _).mp hd
    obtain ⟨ih1, ih2⟩ := ih hd2
    refine ⟨(siblingsDistinct_file _ _ _).mpr ⟨?_, ih1⟩,
      insertSorted_renderEq (RenderEq.refl _) ih2⟩
    intro m hm
    obtain ⟨m0, hm0, hname⟩ := List.mem_map.mp
      (hp.names_perm.symm.subset (List.mem_map_of_mem Node.GetName hm))
    rw [← hname]
    exact hd1 m0 hm0
  | dir name hpc hp ihc ih =>
    intro hd
    obtain ⟨hd1, hdc, hd2⟩ := (siblingsDistinct_dir _ _ _).mp hd
    obtain ⟨ihc1, ihc2⟩ := ihc hdc
    obtain ⟨ih1, ih2⟩ := ih hd2
    refine ⟨(siblingsDistinct_dir _ _ _).mpr ⟨?_, ihc1, ih1⟩,
      insertSorted_renderEq ⟨rfl, fun d isLast => ?_⟩ ih2⟩
    · intro m hm
      obtain ⟨m0, hm0, hname⟩ := List.mem_map.mp
        (hp.names_perm.symm.subset (List.mem_map_of_mem Node.GetName hm))
      rw [← hname]
      exact hd1 m0 hm0
    · rw [RenderNode_dir_eq, RenderNode_dir_eq, renderAst_congr ihc2]
  | swap a b l =>
    intro hd
    have hperm : (b :: a :: l).Perm (a :: b :: l) := List.Perm.swap a b l
    have hd1 : SiblingsDistinct (b :: a :: l) := by
      rw [siblingsDistinct_iff] at hd ⊢
      refine ⟨(hperm.pairwise_iff (fun {x y} hxy => Ne.symm hxy)).mpr hd.1, ?_⟩
      intro name cs hm
      exact hd.2 name cs (hperm.subset hm)
    have heq : sortSlice (b :: a :: l) = sortSlice (a :: b :: l) :=
      sortSlice_unique _ _ ((sortSlice_perm _).trans hperm) (sortSlice_strict _ hd1.top)
    rw [heq]
    exact ⟨hd1, List.forall₂_same.mpr (fun x _ => RenderEq.refl x)⟩
  | trans _ _ ih1 ih2 =>
    intro hd
    obtain ⟨hd2, h12⟩ := ih1 hd
    obtain ⟨hd3, h23⟩ := ih2 hd2
    exact ⟨hd3, forall₂_renderEq_trans h12 h23⟩

/-! ## Scanning -/

mutual
/-- On a readable directory `buildAst` returns a forest. -/
theorem buildAst_total : ∀ (d : FsDir) (printFiles : Bool), d.Readable →
    ∃ ast, buildAst d printFiles = some ast
  | .mk openErr elements readErr, printFiles, h => by
    simp only [FsDir.Readable] at h
    obtain ⟨ast, hast⟩ := buildLoop_total elements printFiles h.2.2
    exact ⟨ast, by simp [buildAst, h.1, hast]⟩
/-- On readable entries the loop of `buildAst` returns a forest. -/
theorem buildLoop_total : ∀ (es : List FsEntry) (printFiles : Bool), entriesReadable es →
    ∃ ast, buildLoop es printFiles = some ast
  | [], _, _ => ⟨[], by simp [buildLoop]⟩
  | .dir name d :: rest, printFiles, h => by
    simp only [entriesReadable] at h
    obtain ⟨cs, hcs⟩ := buildAst_total d printFiles h.1
    obtain ⟨ast, hast⟩ := buildLoop_total rest printFiles h.2
    exact ⟨.dir name cs :: ast, by simp [buildLoop, hcs, hast]⟩
  | .file name info :: rest, printFiles, h => by
    simp only [entriesReadable] at h
    obtain ⟨ast, hast⟩ := buildLoop_total rest printFiles h.2
    obtain ⟨size, hsize⟩ := Option.isSome_iff_exists.mp h.1
    cases printFiles with
    | true => exact ⟨.file name size :: ast, by simp [buildLoop, hsize, hast]⟩
    | false => exact ⟨ast, by simp [buildLoop, hast]⟩
end

mutual
/-- Scanning without files gives the scan with files, minus the files. -/
theorem buildAst_dropFiles : ∀ (d : FsDir) (t : List Node), buildAst d true = some t →
    buildAst d false = some (dropFiles t)
  | .mk openErr elements readErr, t, h => by
    cases openErr with
    | true => simp [buildAst] at h
    | false =>
      simp only [buildAst, Bool.false_eq_true, if_false] at h ⊢
      exact buildLoop_dropFiles elements t h
/-- The loop of `buildAst` without files gives its result with files, minus the
files. -/
theorem buildLoop_dropFiles : ∀ (es : List FsEntry) (t : List Node),
    buildLoop es true = some t → buildLoop es false = some (dropFiles t)
  | [], t, h => by
    simp only [buildLoop, Option.some.injEq] at h
    subst h
    simp [buildLoop, dropFiles]
  | .dir name d :: rest, t, h => by
    simp only [buildLoop] at h
    cases hcs : buildAst d true with
    | none => simp [hcs] at h
    | some cs =>
      cases hast : buildLoop rest true with
      | none => simp [hcs, hast] at h
      | some ast =>
        simp only [hcs, hast, Option.some.injEq] at h
        subst h
        simp [buildLoop, dropFiles, buildAst_dropFiles d cs hcs,
          buildLoop_dropFiles rest ast hast]
  | .file name info :: rest, t, h => by
    simp only [buildLoop, if_true] at h
    cases info with
    | none => simp at h
    | some size =>
      cases hast : buildLoop rest true with
      | none => simp [hast] at h
      | some ast =>
        simp only [hast, Option.some.injEq] at h
        subst h
        simp [buildLoop, dropFiles, buildLoop_dropFiles rest ast hast]
end

/-- After the files are deleted no file is left. -/
theorem noFileNode_dropFiles (t : List Node) : noFileNode (dropFiles t) = true := by
  refine forest_induction (P := fun t => noFileNode (dropFiles t) = true) (fun ast ih => ?_) t
  induction ast with
  | nil => simp [dropFiles, noFileNode]
  | cons n rest ihr =>
    have hrest := ihr (fun name cs hm => ih name cs (List.mem_cons_of_mem _ hm))
    cases n with
    | file name size => simpa [dropFiles] using hrest
    | dir name cs =>
      simp [dropFiles, noFileNode, hrest, ih name cs (List.mem_cons_self _ _)]

/-- Deleting the files keeps every directory. -/
theorem dirNames_dropFiles (t : List Node) : dirNames (dropFiles t) = dirNames t := by
  refine forest_induction (P := fun t => dirNames (dropFiles t) = dirNames t)
    (fun ast ih => ?_) t
  induction ast with
  | nil => simp [dropFiles]
  | cons n rest ihr =>
    have hrest := ihr (fun name cs hm => ih name cs (List.mem_cons_of_mem _ hm))
    cases n with
    | file name size => simpa [dropFiles, dirNames] using hrest
    | dir name cs =>
      simp [dropFiles, dirNames, hrest, ih name cs (List.mem_cons_self _ _)]

/-- A listing made of empty directories is scanned into one childless
directory node per entry, in the order of the listing. -/
theorem buildLoop_emptyDirs (es : List FsEntry) (printFiles : Bool)
    (h : ∀ e ∈ es, ∃ name, e = FsEntry.dir name emptyDir) :
    buildLoop es printFiles = some (es.map emptyDirNode) := by
  induction es with
  | nil => simp [buildLoop]
  | cons e rest ih =>
    obtain ⟨name, rfl⟩ := h e (List.mem_cons_self _ _)
    have hrest := ih (fun e1 he1 => h e1 (List.mem_cons_of_mem _ he1))
    simp [buildLoop, emptyDir, buildAst, hrest, emptyDirNode]

/-- With distinct names the output does not depend on the order of the slice. -/
theorem renderAst_of_perm {ast ast1 : List Node} (hp : ast.Perm ast1)
    (hd : ast1.Pairwise (fun a b => a.GetName ≠ b.GetName)) (d : Nat) :
    renderAst ast d = renderAst ast1 d := by
  have heq : sortSlice ast = sortSlice ast1 :=
    sortSlice_unique _ _ ((sortSlice_perm ast).trans hp)
      (sortSlice_strict ast ((hp.pairwise_iff (fun {a b} hab => Ne.symm hab)).mpr hd))
  rw [renderAst_eq, renderAst_eq, heq]

/-- Every node the loop of `buildAst` makes carries the name of a listed entry. -/
theorem buildLoop_names : ∀ (es : List FsEntry) (printFiles : Bool) (t : List Node),
    buildLoop es printFiles = some t → ∀ m ∈ t, ∃ e ∈ es, e.Name = m.GetName
  | [], _, t, h => by
    simp only [buildLoop, Option.some.injEq] at h
    subst h
    simp
  | .dir name d :: rest, printFiles, t, h => by
    simp only [buildLoop] at h
    cases hcs : buildAst d printFiles with
    | none => simp [hcs] at h
    | some cs =>
      cases hast : buildLoop rest printFiles with
      | none => simp [hcs, hast] at h
      | some ast =>
        simp only [hcs, hast, Option.some.injEq] at h
        subst h
        intro m hm
        rcases List.mem_cons.mp hm with rfl | hm
        · exact ⟨_, List.mem_cons_self _ _, rfl⟩
        · obtain ⟨e, he, hname⟩ := buildLoop_names rest printFiles ast hast m hm
          exact ⟨e, List.mem_cons_of_mem _ he, hname⟩
  | .file name info :: rest, printFiles, t, h => by
    simp only [buildLoop] at h
    cases printFiles with
    | false =>
      simp only [Bool.false_eq_true, if_false] at h
      intro m hm
      obtain ⟨e, he, hname⟩ := buildLoop_names rest false t h m hm
      exact ⟨e, List.mem_cons_of_mem _ he, hname⟩
    | true =>
      simp only [if_true] at h
      cases info with
      | none => simp at h
      | some size =>
        cases hast : buildLoop rest true with
        | none => simp [hast] at h
        | some ast =>
          simp only [hast, Option.some.injEq] at h
          subst h
          intro m hm
          rcases List.mem_cons.mp hm with rfl | hm
          · exact ⟨_, List.mem_cons_self _ _, rfl⟩
          · obtain ⟨e, he, hname⟩ := buildLoop_names rest true ast hast m hm
            exact ⟨e, List.mem_cons_of_mem _ he, hname⟩

mutual
/-- The scan of a file system whose listings have distinct names is a forest
with distinct sibling names at every level. -/
theorem buildAst_siblingsDistinct : ∀ (d : FsDir) (printFiles : Bool) (t : List Node),
    d.NamesDistinct → buildAst d printFiles = some t → SiblingsDistinct t
  | .mk openErr elements readErr, printFiles, t, hd, h => by
    cases openErr with
    | true => simp [buildAst] at h
    | false =>
      simp only [buildAst, Bool.false_eq_true, if_false] at h
      simp only [FsDir.NamesDistinct] at hd
      exact buildLoop_siblingsDistinct elements printFiles t hd h
/-- The loop of `buildAst` keeps sibling names distinct. -/
theorem buildLoop_siblingsDistinct : ∀ (es : List FsEntry) (printFiles : Bool)
    (t : List Node), entriesDistinct es → buildLoop es printFiles = some t →
    SiblingsDistinct t
  | [], _, t, _, h => by
    simp only [buildLoop, Option.some.injEq] at h
    subst h
    simp only [SiblingsDistinct]
  | .dir name d :: rest, printFiles, t, hd, h => by
    simp only [buildLoop] at h
    simp only [entriesDistinct] at hd
    cases hcs : buildAst d printFiles with
    | none => simp [hcs] at h
    | some cs =>
      cases hast : buildLoop rest printFiles with
      | none => simp [hcs, hast] at h
      | some ast =>
        simp only [hcs, hast, Option.some.injEq] at h
        subst h
        refine (siblingsDistinct_dir _ _ _).mpr ⟨?_,
          buildAst_siblingsDistinct d printFiles cs hd.2.1 hcs,
          buildLoop_siblingsDistinct rest printFiles ast hd.2.2 hast⟩
        intro m hm
        obtain ⟨e, he, hname⟩ := buildLoop_names rest printFiles ast hast m hm
        rw [← hname]
        exact hd.1 e he
  | .file name info :: rest, printFiles, t, hd, h => by
    simp only [buildLoop] at h
    simp only [entriesDistinct] at hd
    cases printFiles with
    | false =>
      simp only [Bool.false_eq_true, if_false] at h
      exact buildLoop_siblingsDistinct rest false t hd.2 h
    | true =>
      simp only [if_true] at h
      cases info with
      | none => simp at h
      | some size =>
        cases hast : buildLoop rest true with
        | none => simp [hast] at h
        | some ast =>
          simp only [hast, Option.some.injEq] at h
          subst h
          refine (siblingsDistinct_file _ _ _).mpr ⟨?_,
            buildLoop_siblingsDistinct rest true ast hd.2 hast⟩
          intro m hm
          obtain ⟨e, he, hname⟩ := buildLoop_names rest true ast hast m hm
          rw [← hname]
          exact hd.1 e he
end

/-- A forest three levels deep, rendered: every line carries one lead per
ancestor directory. -/
theorem renderAst_three_levels :
    renderAst [.file "m" 2, .dir "a" [.file "y" 0, .dir "b" [.dir "c" [.file "x" 1]]]] 0 =
      ["├───a", "│\t├───b", "│\t│\t└───c", "│\t│\t\t└───x (1b)", "│\t└───y (empty)",
        "└───m (2b)"] := by
  simp [renderAst_eq, RenderNode_dir_eq, RenderNode_file_eq, sortSlice, insertSorted, less,
    Node.GetName, List.enum, List.enumFrom, getIndent, sprintfD]
  decide

/-! ## The program -/

/-- The result of `dirTree` in terms of the scan: nothing when the scan panics,
else the joined lines and a line break appended to the writer, and a nil error. -/
theorem dirTree_eq (out : String) (path : FsDir) (printFiles : Bool) :
    dirTree out path printFiles =
      (buildAst path printFiles).map fun ast =>
        (out ++ stringsJoin (renderAst ast 0) "\n" ++ "\n", none) := by
  unfold dirTree
  cases buildAst path printFiles <;> rfl

/-- A run whose argument count is neither 2 nor 3 prints the argument vector
and panics with the usage message, without calling `dirTree`. -/
theorem runMain_usage (osArgs : List String) (fs : String → FsDir)
    (h : ¬ (osArgs.length = 2 ∨ osArgs.length = 3)) :
    runMain osArgs fs = ⟨sprintArgs osArgs ++ "\n", .usagePanic, []⟩ := by
  have h1 : (!(osArgs.length == 2 || osArgs.length == 3)) = true := by
    simpa using h
  simp only [runMain, h1, if_true]

/-- A run whose argument count is 2 or 3 prints the argument vector and calls
`dirTree` once; it ends in a panic of the scan or returns after the tree is
printed. -/
theorem runMain_accepted (osArgs : List String) (fs : String → FsDir)
    (h : osArgs.length = 2 ∨ osArgs.length = 3) :
    runMain osArgs fs =
      match buildAst (fs (osArgs.getD 1 ""))
          (osArgs.length == 3 && osArgs.getD 2 "" == "-f") with
      | none =>
        ⟨sprintArgs osArgs ++ "\n", .scanPanic,
          [(osArgs.getD 1 "", osArgs.length == 3 && osArgs.getD 2 "" == "-f")]⟩
      | some ast =>
        ⟨sprintArgs osArgs ++ "\n" ++ stringsJoin (renderAst ast 0) "\n" ++ "\n", .returned,
          [(osArgs.getD 1 "", osArgs.length == 3 && osArgs.getD 2 "" == "-f")]⟩ := by
  have h1 : (!(osArgs.length == 2 || osArgs.length == 3)) = false := by
    rcases h with h | h <;> simp [h]
  simp only [runMain, h1, Bool.false_eq_true, if_false, dirTree_eq]
  cases buildAst (fs (osArgs.getD 1 "")) (osArgs.length == 3 && osArgs.getD 2 "" == "-f") <;>
    rfl

mutual
/-- Where the scan meets directories only, the flag makes no difference. -/
theorem buildAst_onlyDirs : ∀ (d : FsDir), d.OnlyDirs → buildAst d true = buildAst d false
  | .mk openErr elements readErr, h => by
    simp only [FsDir.OnlyDirs] at h
    simp only [buildAst, buildLoop_onlyDirs elements h]
/-- Where the listing holds directories only, the flag makes no difference to
the loop of `buildAst`. -/
theorem buildLoop_onlyDirs : ∀ (es : List FsEntry), entriesOnlyDirs es →
    buildLoop es true = buildLoop es false
  | [], _ => by simp [buildLoop]
  | .file name info :: rest, h => by simp [entriesOnlyDirs] at h
  | .dir name d :: rest, h => by
    simp only [entriesOnlyDirs] at h
    simp only [buildLoop, buildAst_onlyDirs d h.1, buildLoop_onlyDirs rest h.2]
end

/-! ## Counting lines -/

/-- The nodes of a forest, counted sibling by sibling. -/
theorem countNodes_eq_sum (l : List Node) : countNodes l = (l.map nodeWeight).sum := by
  induction l with
  | nil => simp [countNodes]
  | cons n rest ih =>
    cases n with
    | file name size => simp [countNodes, nodeWeight, ih]
    | dir name cs => simp [countNodes, nodeWeight, ih]

/-- Reordering the siblings keeps the number of nodes. -/
theorem countNodes_perm {l l1 : List Node} (h : l.Perm l1) : countNodes l = countNodes l1 := by
  rw [countNodes_eq_sum, countNodes_eq_sum]
  exact (h.map nodeWeight).sum_eq

/-- A rendered node has one line per node in it, provided this holds for the
forest of its children. -/
theorem RenderNode_length (n : Node) (d : Nat) (isLast : Bool)
    (ih : ∀ name cs, n = Node.dir name cs → ∀ d, (renderAst cs d).length = countNodes cs) :
    (RenderNode n d isLast).length = nodeWeight n := by
  cases n with
  | file name size => rw [RenderNode_file_eq]; rfl
  | dir name cs =>
    rw [RenderNode_dir_eq, List.length_cons, List.length_map, ih name cs rfl, nodeWeight]
    omega

/-- The output of `renderAst` has one line per node of the forest. -/
theorem renderAst_length : ∀ (ast : List Node) (d : Nat),
    (renderAst ast d).length = countNodes ast := by
  intro ast
  refine forest_induction
    (P := fun ast => ∀ d, (renderAst ast d).length = countNodes ast)
    (fun ast ih => ?_) ast
  intro d
  have hmap : ((sortSlice ast).enum.map fun p =>
      RenderNode p.2 d (p.1 == (sortSlice ast).length - 1)).map List.length =
      (sortSlice ast).map nodeWeight := by
    rw [List.map_map]
    conv_rhs => rw [← List.enum_map_snd (sortSlice ast), List.map_map]
    apply List.map_congr_left
    intro p hp
    have hmem : p.2 ∈ ast := mem_sortSlice.mp (List.snd_mem_of_mem_enum hp)
    exact RenderNode_length p.2 d _ (fun name cs hn => ih name cs (by rw [← hn]; exact hmem))
  rw [renderAst_eq, List.length_flatten, hmap, ← countNodes_eq_sum,
    countNodes_perm (sortSlice_perm ast)]

/-! ## Rendering and memory -/

/-- Unfolding of `RenderNodeSt` on a file. -/
theorem RenderNodeSt_file_eq (name : String) (size : Int) (depth : Nat) (isLast : Bool) :
    RenderNodeSt (.file name size) depth isLast =
      (RenderNode (.file name size) depth isLast, .file name size) := by
  rw [RenderNodeSt]

/-- Unfolding of `RenderNodeSt` on a directory. -/
theorem RenderNodeSt_dir_eq (name : String) (children : List Node) (depth : Nat)
    (isLast : Bool) :
    RenderNodeSt (.dir name children) depth isLast =
      ((getIndent depth isLast ++ name) ::
        (renderAstSt children (depth + 1)).1.map (fun subLine =>
          if !isLast then "│\t" ++ subLine else "\t" ++ subLine),
       .dir name (renderAstSt children (depth + 1)).2) := by
  rw [RenderNodeSt]

/-- Unfolding of `renderAstSt`, without the membership bookkeeping. -/
theorem renderAstSt_eq (ast : List Node) (depth : Nat) :
    renderAstSt ast depth =
      ((((sortSlice ast).enum.map fun p =>
          RenderNodeSt p.2 depth (p.1 == (sortSlice ast).length - 1)).map Prod.fst).flatten,
       ((sortSlice ast).enum.map fun p =>
          RenderNodeSt p.2 depth (p.1 == (sortSlice ast).length - 1)).map Prod.snd) := by
  rw [renderAstSt]
  generalize sortSlice ast = l
  generalize l.length - 1 = k
  have h : l.enum = l.attach.enum.map (fun p => (p.1, p.2.1)) := by
    conv_lhs => rw [← List.attach_map_subtype_val l]
    rw [List.enum_map]
    rfl
  have hm : (l.enum.map fun p => RenderNodeSt p.2 depth (p.1 == k)) =
      l.attach.enum.map fun p => RenderNodeSt p.2.1 depth (p.1 == k) := by
    rw [h, List.map_map]
    rfl
  rw [hm]

/-- The node left by `RenderNodeSt` keeps its name. -/
theorem RenderNodeSt_name (n : Node) (d : Nat) (isLast : Bool) :
    (RenderNodeSt n d isLast).2.GetName = n.GetName := by
  cases n with
  | file name size => rw [RenderNodeSt_file_eq]
  | dir name cs => rw [RenderNodeSt_dir_eq]; rfl

/-- The lines of `renderAstSt` are the lines of `renderAst`. -/
theorem renderAstSt_lines : ∀ (ast : List Node) (d : Nat),
    (renderAstSt ast d).1 = renderAst ast d := by
  intro ast
  refine forest_induction
    (P := fun ast => ∀ d, (renderAstSt ast d).1 = renderAst ast d)
    (fun ast ih => ?_) ast
  intro d
  rw [renderAstSt_eq, renderAst_eq, List.map_map]
  apply enumFrom_flatten_congr
  intro p hp
  have hmem : p.2 ∈ ast := mem_sortSlice.mp hp
  show (RenderNodeSt p.2 d _).1 = RenderNode p.2 d _
  cases hn : p.2 with
  | file name size => rw [RenderNodeSt_file_eq]
  | dir name cs =>
    rw [RenderNodeSt_dir_eq, RenderNode_dir_eq, ih name cs (by rw [← hn]; exact hmem)]

/-- Every forest is a reordering of itself. -/
theorem permTree_refl : ∀ (l : List Node), PermTree l l := by
  intro l
  refine forest_induction (P := fun l => PermTree l l) (fun ast ih => ?_) l
  induction ast with
  | nil => exact PermTree.nil
  | cons n rest ihr =>
    have hrest := ihr (fun name cs hm => ih name cs (List.mem_cons_of_mem _ hm))
    cases n with
    | file name size => exact PermTree.file name size hrest
    | dir name cs => exact PermTree.dir name (ih name cs (List.mem_cons_self _ _)) hrest

/-- A reordering of the top level is a reordering at every level. -/
theorem permTree_of_perm {l l1 : List Node} (h : l.Perm l1) : PermTree l l1 := by
  induction h with
  | nil => exact PermTree.nil
  | cons x _ ih =>
    cases x with
    | file name size => exact PermTree.file name size ih
    | dir name cs => exact PermTree.dir name (permTree_refl cs) ih
  | swap x y l => exact PermTree.swap y x l
  | trans _ _ ih1 ih2 => exact PermTree.trans ih1 ih2

/-- Rendering the elements of a slice in turn leaves a reordering of it, when
this holds for the children of its directories. -/
theorem permTree_rendered (d K : Nat) : ∀ (l : List Node) (k : Nat),
    (∀ name cs, Node.dir name cs ∈ l → ∀ d, PermTree cs (renderAstSt cs d).2) →
    PermTree l (((l.enumFrom k).map fun p => RenderNodeSt p.2 d (p.1 == K)).map Prod.snd)
  | [], _, _ => PermTree.nil
  | n :: rest, k, ih => by
    have hrest := permTree_rendered d K rest (k + 1)
      (fun name cs hm => ih name cs (List.mem_cons_of_mem _ hm))
    simp only [List.enumFrom_cons, List.map_cons]
    cases n with
    | file name size =>
      rw [RenderNodeSt_file_eq]
      exact PermTree.file name size hrest
    | dir name cs =>
      rw [RenderNodeSt_dir_eq]
      exact PermTree.dir name (ih name cs (List.mem_cons_self _ _) (d + 1)) hrest

/-- After `renderAst` the slice holds the same nodes as before, at every level. -/
theorem renderAstSt_permTree : ∀ (ast : List Node) (d : Nat),
    PermTree ast (renderAstSt ast d).2 := by
  intro ast
  refine forest_induction
    (P := fun ast => ∀ d, PermTree ast (renderAstSt ast d).2)
    (fun ast ih => ?_) ast
  intro d
  rw [renderAstSt_eq]
  exact PermTree.trans (permTree_of_perm (sortSlice_perm ast).symm)
    (permTree_rendered d _ (sortSlice ast) 0
      (fun name cs hm => ih name cs (mem_sortSlice.mp hm)))

/-- Rendering the elements of an ascending slice in turn leaves a forest that
ascends at every level, when this holds for the children of its directories. -/
theorem ascendingTree_rendered (d K : Nat) : ∀ (l : List Node) (k : Nat),
    l.Pairwise (fun a b => a.GetName ≤ b.GetName) →
    (∀ name cs, Node.dir name cs ∈ l → ∀ d, AscendingTree (renderAstSt cs d).2) →
    AscendingTree (((l.enumFrom k).map fun p => RenderNodeSt p.2 d (p.1 == K)).map Prod.snd)
  | [], _, _, _ => by simp [AscendingTree]
  | n :: rest, k, hp, ih => by
    rw [List.pairwise_cons] at hp
    have hrest := ascendingTree_rendered d K rest (k + 1) hp.2
      (fun name cs hm => ih name cs (List.mem_cons_of_mem _ hm))
    have hnames : ∀ m ∈ ((rest.enumFrom (k + 1)).map fun p =>
        RenderNodeSt p.2 d (p.1 == K)).map Prod.snd, n.GetName ≤ m.GetName := by
      intro m hm
      simp only [List.mem_map] at hm
      obtain ⟨r, ⟨p, hpm, rfl⟩, rfl⟩ := hm
      rw [RenderNodeSt_name]
      exact hp.1 p.2 (List.snd_mem_of_mem_enumFrom hpm)
    simp only [List.enumFrom_cons, List.map_cons]
    cases n with
    | file name size =>
      rw [RenderNodeSt_file_eq]
      simp only [AscendingTree]
      exact ⟨hnames, hrest⟩
    | dir name cs =>
      rw [RenderNodeSt_dir_eq]
      simp only [AscendingTree]
      exact ⟨hnames, ih name cs (List.mem_cons_self _ _) (d + 1), hrest⟩

/-- After `renderAst` every sibling list of the slice ascends by name. -/
theorem renderAstSt_ascending : ∀ (ast : List Node) (d : Nat),
    AscendingTree (renderAstSt ast d).2 := by
  intro ast
  refine forest_induction
    (P := fun ast => ∀ d, AscendingTree (renderAstSt ast d).2)
    (fun ast ih => ?_) ast
  intro d
  rw [renderAstSt_eq]
  exact ascendingTree_rendered d _ (sortSlice ast) 0 (sortSlice_ascending ast)
    (fun name cs hm => ih name cs (mem_sortSlice.mp hm))

/-! ## Errors of the scan -/

mutual
/-- A directory that cannot be opened, at any level, makes `buildAst` panic. -/
theorem buildAst_open_failure : ∀ (d : FsDir) (printFiles : Bool), d.OpenFails →
    buildAst d printFiles = none
  | .mk openErr elements readErr, printFiles, h => by
    simp only [FsDir.OpenFails] at h
    cases openErr with
    | true => simp [buildAst]
    | false =>
      simp only [Bool.false_eq_true, false_or] at h
      simp only [buildAst, Bool.false_eq_true, if_false]
      exact buildLoop_open_failure elements printFiles h
/-- A listed directory that cannot be opened makes the loop of `buildAst` panic. -/
theorem buildLoop_open_failure : ∀ (es : List FsEntry) (printFiles : Bool),
    entriesOpenFail es → buildLoop es printFiles = none
  | [], _, h => by simp [entriesOpenFail] at h
  | .file name info :: rest, printFiles, h => by
    simp only [entriesOpenFail] at h
    have hrest := buildLoop_open_failure rest printFiles h
    cases printFiles with
    | false => simpa [buildLoop] using hrest
    | true =>
      cases info with
      | none => simp [buildLoop]
      | some size => simp [buildLoop, hrest]
  | .dir name d :: rest, printFiles, h => by
    simp only [entriesOpenFail] at h
    simp only [buildLoop]
    rcases h with h | h
    · rw [buildAst_open_failure d printFiles h]
    · rw [buildLoop_open_failure rest printFiles h]
      cases buildAst d printFiles <;> rfl
end

/-! ## Claims -/

/-- C1: rendering a directory named `n` with children `cs` at depth `d` gives the
line made of the marker ("└───" when last, "├───" otherwise) and `n`, with no size
suffix, followed by the lines of `renderAst cs (d+1)` in the same order, each
with "│\t" in front when the directory is not last and "\t" when it is. -/
theorem C1_dir_render (n : String) (cs : List Node) (d : Nat) (isLast : Bool) :
    RenderNode (.dir n cs) d isLast =
      ((if isLast then "└───" else "├───") ++ n) ::
        (renderAst cs (d + 1)).map
          (fun line => (if isLast then "\t" else "│\t") ++ line) := by
  rw [RenderNode_dir_eq, getIndent_eq]
  cases isLast <;> rfl

/-- C2: rendering a file named `n` of size `s ≥ 0` gives exactly one line: the
marker, `n`, and the size label in parentheses, the label being the decimal
representation of `s` followed by "b" when `s > 0` and "empty" when `s = 0`;
size 42 gives the label "42b". -/
theorem C2_file_render (n : String) (s : Int) (d : Nat) (isLast : Bool) (hs : 0 ≤ s) :
    RenderNode (.file n s) d isLast =
        [(if isLast then "└───" else "├───") ++ n ++ " (" ++
          (if s = 0 then "empty" else Nat.repr s.toNat ++ "b") ++ ")"] ∧
      RenderNode (.file n 42) d isLast =
        [(if isLast then "└───" else "├───") ++ n ++ " (" ++ "42b" ++ ")"] := by
  constructor
  · rw [RenderNode_file_eq, getIndent_eq]
    by_cases h0 : s = 0
    · subst h0; simp
    · have hpos : s > 0 := lt_of_le_of_ne hs (Ne.symm h0)
      obtain ⟨k, rfl⟩ := Int.eq_ofNat_of_zero_le hs
      have hk : ¬ ((k : Int) < 0) := by omega
      simp [h0, hpos, sprintfD, hk]
  · rw [RenderNode_file_eq, getIndent_eq]
    have h : sprintfD 42 ++ "b" = "42b" := by decide
    simp [h]

/-- Witness of C2: a file `notes.txt` of size 7, rendered last. -/
theorem C2_file_render_witness :
    (0 : Int) ≤ 7 ∧ RenderNode (.file "notes.txt" 7) 0 true = ["└───notes.txt (7b)"] :=
  ⟨by decide, by
    have h := (C2_file_render "notes.txt" 7 0 true (by decide)).1
    rw [h]; decide⟩

/-- C3, as stated, fails for siblings that share a name: the two files named
`a` are reported in the order `a`, `a`, which ascends but not strictly; no
arrangement of them does. -/
theorem C3_counterexample :
    renderAst [.file "a" 1, .file "a" 2] 0 = ["├───a (1b)", "└───a (2b)"] ∧
    (sortSlice [.file "a" 1, .file "a" 2]).map Node.GetName = ["a", "a"] ∧
    ¬ (sortSlice [.file "a" 1, .file "a" 2]).Pairwise
        (fun a b => a.GetName < b.GetName) ∧
    (∀ s : List Node, s.Perm [.file "a" 1, .file "a" 2] →
      ¬ s.Pairwise (fun a b => a.GetName < b.GetName)) := by
  have hnot : ∀ s : List Node, s.Perm [.file "a" 1, .file "a" 2] →
      ¬ s.Pairwise (fun a b => a.GetName < b.GetName) := by
    intro s hp hs
    have hne : List.Pairwise (fun a b : Node => a.GetName ≠ b.GetName)
        [.file "a" 1, .file "a" 2] :=
      (hp.pairwise_iff (fun {a b} hab => Ne.symm hab)).mp
        (hs.imp (fun {a b} hab => ne_of_lt hab))
    simp [Node.GetName] at hne
  refine ⟨?_, ?_, hnot _ (sortSlice_perm _), hnot⟩
  · simp [renderAst_eq, RenderNode_file_eq, sortSlice, insertSorted, less, Node.GetName,
      List.enum, List.enumFrom, getIndent, sprintfD]
    decide
  · simp [sortSlice, insertSorted, less, Node.GetName]

/-- C3, amended: `renderAst` emits the siblings of a list block by block in ascending
order of name: its output is the concatenation, over the name-sorted siblings,
of each sibling's lines, every block starting with the line that reports the
sibling.  When sibling names are pairwise distinct, as in every directory
listing, the order is strictly ascending.  The block of a directory continues
with the output of `renderAst` on its own children alone, to which the same
statement applies: children are ordered among themselves only. -/
theorem C3_siblings_ascending (ast : List Node) (d : Nat) :
    (sortSlice ast).Perm ast ∧
    (sortSlice ast).Pairwise (fun a b => a.GetName ≤ b.GetName) ∧
    (SiblingsDistinct ast →
      (sortSlice ast).Pairwise (fun a b => a.GetName < b.GetName)) ∧
    renderAst ast d =
      ((sortSlice ast).enum.map fun p =>
        RenderNode p.2 d (p.1 == (sortSlice ast).length - 1)).flatten ∧
    (∀ n isLast, ∃ below, RenderNode n d isLast = nodeLine n isLast :: below) ∧
    (∀ name cs, Node.dir name cs ∈ ast →
      (SiblingsDistinct ast → SiblingsDistinct cs) ∧
      ∀ isLast, RenderNode (.dir name cs) d isLast =
        nodeLine (.dir name cs) isLast ::
          (renderAst cs (d + 1)).map (fun line => ancestorLead isLast ++ line)) := by
  refine ⟨sortSlice_perm ast, sortSlice_ascending ast,
    fun h => sortSlice_strict ast h.top, renderAst_eq ast d,
    fun n isLast => RenderNode_head n d isLast, ?_⟩
  intro name cs hm
  refine ⟨fun h => h.children hm, fun isLast => ?_⟩
  rw [RenderNode_dir_eq, getIndent_eq]
  cases isLast <;> rfl

/-- Witness of C3: a forest with distinct sibling names; its sorted siblings
ascend strictly. -/
theorem C3_siblings_ascending_witness :
    SiblingsDistinct [.dir "sub" [.file "f.txt" 5], .dir "a" [], .file "z" 0] ∧
    (sortSlice [.dir "sub" [.file "f.txt" 5], .dir "a" [], .file "z" 0]).Pairwise
      (fun a b => a.GetName < b.GetName) :=
  ⟨by simp [SiblingsDistinct, Node.GetName],
   (C3_siblings_ascending [.dir "sub" [.file "f.txt" 5], .dir "a" [], .file "z" 0] 0).2.2.1
      (by simp [SiblingsDistinct, Node.GetName])⟩

/-- C4, as stated, fails below the root level: for the root holding the
directory `sub` with the file `f.txt` of size 5, the line reporting `f.txt` is
"\t└───f.txt (5b)", which begins with a tab and with neither marker. -/
theorem C4_counterexample :
    renderAst [.dir "sub" [.file "f.txt" 5]] 0 = ["└───sub", "\t└───f.txt (5b)"] ∧
    (entries [.dir "sub" [.file "f.txt" 5]]).map (fun e => e.node.GetName) =
      ["sub", "f.txt"] ∧
    (¬ ∃ t : String, "\t└───f.txt (5b)" = "└───" ++ t) ∧
    (¬ ∃ t : String, "\t└───f.txt (5b)" = "├───" ++ t) := by
  refine ⟨?_, ?_, ?_, ?_⟩
  · simp [renderAst_eq, RenderNode_dir_eq, RenderNode_file_eq, sortSlice, insertSorted,
      List.enum, List.enumFrom, getIndent, sprintfD]
    decide
  · simp [entries_eq, entriesNode_dir_eq, entriesNode_file_eq, sortSlice, insertSorted,
      List.enum, List.enumFrom, Node.GetName]
  · rintro ⟨t, h⟩
    have h1 := congrArg String.data h
    simp [String.data_append] at h1
  · rintro ⟨t, h⟩
    have h1 := congrArg String.data h
    simp [String.data_append] at h1

/-- C4, amended: the line reporting a node consists of one "│\t" or "\t" per
ancestor directory followed by a remainder that begins with a marker; the
remainder begins with "└───" exactly when the node is the last one, in sorted
order, among its siblings, and with "├───" exactly when it is not.  For a node
without ancestors the line itself begins with the marker. -/
theorem C4_marker_after_ancestors (ast : List Node) (d : Nat) (i : Nat) (e : Entry)
    (h : (entries ast)[i]? = some e) :
    ∃ tail,
      (renderAst ast d)[i]? = some (ancestorsLead e.ancestors ++ (marker e.isLast ++ tail)) ∧
      ((∃ t, marker e.isLast ++ tail = "└───" ++ t) ↔ e.isLast = true) ∧
      ((∃ t, marker e.isLast ++ tail = "├───" ++ t) ↔ e.isLast = false) ∧
      (e.ancestors = [] → (renderAst ast d)[i]? = some (marker e.isLast ++ tail)) := by
  obtain ⟨tail, ht⟩ := nodeLine_marker e.node e.isLast
  have hline : (renderAst ast d)[i]? =
      some (ancestorsLead e.ancestors ++ (marker e.isLast ++ tail)) := by
    rw [renderAst_eq_lines, List.getElem?_map, h, Option.map_some', Entry.line, ht]
  refine ⟨tail, hline, marker_last_iff _ _, marker_inner_iff _ _, ?_⟩
  intro hroot
  rw [hline, hroot]
  simp [ancestorsLead]

/-- Witness of C4: the file `f.txt` below the directory `sub`. -/
theorem C4_marker_after_ancestors_witness :
    (entries [.dir "sub" [.file "f.txt" 5]])[1]? = some ⟨[true], .file "f.txt" 5, true⟩ ∧
    ∃ tail,
      (renderAst [.dir "sub" [.file "f.txt" 5]] 0)[1]? =
        some (ancestorsLead [true] ++ (marker true ++ tail)) :=
  have h : (entries [.dir "sub" [.file "f.txt" 5]])[1]? =
      some ⟨[true], .file "f.txt" 5, true⟩ := by
    simp [entries_eq, entriesNode_dir_eq, entriesNode_file_eq, sortSlice, insertSorted,
      List.enum, List.enumFrom]
  ⟨h, (C4_marker_after_ancestors _ 0 1 _ h).imp fun _ ht => ht.1⟩

/-- C5: every line of `renderAst` is the line of one node, in display order:
one "│\t" (ancestor not last) or "\t" (ancestor last) per ancestor directory,
outermost first, then the marker of the node, its name, and for a file the size
label in parentheses.  A node below three directories carries three such leads. -/
theorem C5_line_of_every_node (ast : List Node) (d : Nat) :
    renderAst ast d =
      (entries ast).map
        (fun e => ancestorsLead e.ancestors ++ nodeLine e.node e.isLast) ∧
    (∀ a1 a2 a3 : Bool, ancestorsLead [a1, a2, a3] =
      ancestorLead a1 ++ ancestorLead a2 ++ ancestorLead a3) ∧
    (∀ name size isLast, nodeLine (.file name size) isLast =
      (if isLast then "└───" else "├───") ++ name ++ " (" ++
        (if size > 0 then sprintfD size ++ "b" else "empty") ++ ")") ∧
    (∀ name cs isLast, nodeLine (.dir name cs) isLast =
      (if isLast then "└───" else "├───") ++ name) := by
  refine ⟨renderAst_eq_lines ast d, ?_, fun _ _ _ => rfl, fun _ _ _ => rfl⟩
  intro a1 a2 a3
  simp [ancestorsLead, String.append_assoc]

/-- C6: two forests that are reorderings of each other at every level, with
pairwise distinct sibling names at every level, render to the same sequence of
lines: the order in which the scan lists the entries has no effect. -/
theorem C6_enumeration_order_irrelevant (ast ast1 : List Node) (d : Nat)
    (hperm : PermTree ast ast1) (hdistinct : SiblingsDistinct ast) :
    renderAst ast d = renderAst ast1 d :=
  renderAst_congr (hperm.sorted_renderEq hdistinct).2 d

/-- Witness of C6: two directories listed in either order. -/
theorem C6_enumeration_order_irrelevant_witness :
    PermTree [.dir "b" [], .dir "a" []] [.dir "a" [], .dir "b" []] ∧
    SiblingsDistinct [.dir "b" [], .dir "a" []] ∧
    renderAst [.dir "b" [], .dir "a" []] 0 = renderAst [.dir "a" [], .dir "b" []] 0 :=
  ⟨PermTree.swap _ _ _, by simp [SiblingsDistinct, Node.GetName],
   C6_enumeration_order_irrelevant _ _ 0 (PermTree.swap _ _ _)
     (by simp [SiblingsDistinct, Node.GetName])⟩

/-- C7: on a readable directory tree `dirTree` returns: it appends to its writer
the lines of `renderAst (buildAst path) 0` joined with "\n" and one closing
"\n", nothing else, and returns a nil error; when no entry is rendered, it
writes the single character "\n". -/
theorem C7_dirTree_output (out : String) (path : FsDir) (printFiles : Bool)
    (h : path.Readable) :
    ∃ ast, buildAst path printFiles = some ast ∧
      dirTree out path printFiles =
        some (out ++ String.intercalate "\n" (renderAst ast 0) ++ "\n", none) ∧
      (renderAst ast 0 = [] → dirTree "" path printFiles = some ("\n", none)) := by
  obtain ⟨ast, hast⟩ := buildAst_total path printFiles h
  refine ⟨ast, hast, by simp [dirTree, hast, stringsJoin], ?_⟩
  intro hempty
  simp only [dirTree, hast, stringsJoin, hempty]
  rfl

/-- Witness of C7: an empty readable root; the text written is "\n". -/
theorem C7_dirTree_output_witness :
    emptyDir.Readable ∧ dirTree "" emptyDir true = some ("\n", none) := by
  have hr : emptyDir.Readable := by simp [emptyDir, FsDir.Readable, entriesReadable]
  obtain ⟨ast, hast, _, hempty⟩ := C7_dirTree_output "" emptyDir true hr
  have hnil : ast = [] := by simpa [emptyDir, buildAst, buildLoop] using hast.symm
  subst hnil
  exact ⟨hr, hempty (by simp [renderAst_eq, sortSlice])⟩

/-- C8: for a root whose only entries are the three empty directories `a`, `b`
and `c`, listed in any order, and files not included, the output is exactly
"├───a\n├───b\n└───c\n". -/
theorem C8_three_directories (elements : List FsEntry)
    (h : elements.Perm [.dir "a" emptyDir, .dir "b" emptyDir, .dir "c" emptyDir]) :
    dirTree "" (.mk false elements false) false = some ("├───a\n├───b\n└───c\n", none) := by
  have hall : ∀ e ∈ elements, ∃ name, e = FsEntry.dir name emptyDir := by
    intro e he
    have hmem := h.subset he
    simp only [List.mem_cons, List.mem_singleton, List.not_mem_nil, or_false] at hmem
    rcases hmem with rfl | rfl | rfl
    · exact ⟨"a", rfl⟩
    · exact ⟨"b", rfl⟩
    · exact ⟨"c", rfl⟩
  have hperm : (elements.map emptyDirNode).Perm [.dir "a" [], .dir "b" [], .dir "c" []] :=
    h.map emptyDirNode
  have hdistinct : List.Pairwise (fun a b : Node => a.GetName ≠ b.GetName)
      [.dir "a" [], .dir "b" [], .dir "c" []] := by
    simp [Node.GetName]
  simp only [dirTree, buildAst, Bool.false_eq_true, if_false,
    buildLoop_emptyDirs elements false hall, renderAst_of_perm hperm hdistinct 0]
  simp [renderAst_eq, RenderNode_dir_eq, sortSlice, insertSorted, less, Node.GetName,
    List.enum, List.enumFrom, getIndent, stringsJoin]
  decide

/-- Witness of C8: the listing `c`, `a`, `b`. -/
theorem C8_three_directories_witness :
    [FsEntry.dir "c" emptyDir, .dir "a" emptyDir, .dir "b" emptyDir].Perm
      [.dir "a" emptyDir, .dir "b" emptyDir, .dir "c" emptyDir] ∧
    dirTree "" (.mk false [.dir "c" emptyDir, .dir "a" emptyDir, .dir "b" emptyDir] false)
      false = some ("├───a\n├───b\n└───c\n", none) :=
  have hp : [FsEntry.dir "c" emptyDir, .dir "a" emptyDir, .dir "b" emptyDir].Perm
      [.dir "a" emptyDir, .dir "b" emptyDir, .dir "c" emptyDir] :=
    ((List.Perm.swap (FsEntry.dir "a" emptyDir) (.dir "c" emptyDir) [.dir "b" emptyDir]).trans
      ((List.Perm.swap (FsEntry.dir "b" emptyDir) (.dir "c" emptyDir) []).cons _))
  ⟨hp, C8_three_directories _ hp⟩

/-- C9: for a root containing the directory `sub` that holds the file `f.txt`
of size 5, with files included, the output is exactly
"└───sub\n\t└───f.txt (5b)\n". -/
theorem C9_directory_with_file :
    dirTree "" (.mk false [.dir "sub" (.mk false [.file "f.txt" (some 5)] false)] false)
      true = some ("└───sub\n\t└───f.txt (5b)\n", none) := by
  simp [dirTree, buildAst, buildLoop, renderAst_eq, RenderNode_dir_eq, RenderNode_file_eq,
    sortSlice, insertSorted, List.enum, List.enumFrom, getIndent, sprintfD, stringsJoin]
  decide

/-- C10: when the scan with files returns a forest, the scan without files
returns that forest with every `FileNode` deleted at every level; the result
holds no `FileNode` at any depth and the same directories as the scan with
files. -/
theorem C10_files_gated (path : FsDir) (t : List Node) (h : buildAst path true = some t) :
    buildAst path false = some (dropFiles t) ∧
    noFileNode (dropFiles t) = true ∧
    dirNames (dropFiles t) = dirNames t :=
  ⟨buildAst_dropFiles path t h, noFileNode_dropFiles t, dirNames_dropFiles t⟩

/-- Witness of C10: a root with a file and a directory that holds a file. -/
theorem C10_files_gated_witness :
    buildAst (.mk false [.file "x" (some 1),
        .dir "sub" (.mk false [.file "f.txt" (some 5)] false)] false) true =
      some [.file "x" 1, .dir "sub" [.file "f.txt" 5]] ∧
    buildAst (.mk false [.file "x" (some 1),
        .dir "sub" (.mk false [.file "f.txt" (some 5)] false)] false) false =
      some (dropFiles [.file "x" 1, .dir "sub" [.file "f.txt" 5]]) :=
  ⟨rfl, (C10_files_gated
    (.mk false [.file "x" (some 1), .dir "sub" (.mk false [.file "f.txt" (some 5)] false)]
      false)
    [.file "x" 1, .dir "sub" [.file "f.txt" 5]] rfl).1⟩

/-- C11: for a directory that contains only directories, no file at any level,
the output of `dirTree` is the same whether files are included or not. -/
theorem C11_only_directories (out : String) (path : FsDir) (h : path.OnlyDirs) :
    dirTree out path true = dirTree out path false := by
  rw [dirTree_eq, dirTree_eq, buildAst_onlyDirs path h]

/-- Witness of C11: a root holding the directory `a`, which holds the empty
directory `b`. -/
theorem C11_only_directories_witness :
    (FsDir.mk false [.dir "a" (.mk false [.dir "b" emptyDir] false)] false).OnlyDirs ∧
    dirTree "" (.mk false [.dir "a" (.mk false [.dir "b" emptyDir] false)] false) true =
      dirTree "" (.mk false [.dir "a" (.mk false [.dir "b" emptyDir] false)] false) false :=
  ⟨by simp [FsDir.OnlyDirs, entriesOnlyDirs, emptyDir],
   C11_only_directories "" _ (by simp [FsDir.OnlyDirs, entriesOnlyDirs, emptyDir])⟩

/-- C12, on the code: an error of `ReadDir` does not stop `buildAst`.  For a path
that opens but cannot be listed (a regular file, say) it returns the empty
forest; for a listing that fails after the entry `a` was read it returns the
forest of the entries read so far.  The error flag never changes the result. -/
theorem C12_listing_error_ignored :
    buildAst (.mk false [] true) true = some [] ∧
    buildAst (.mk false [] true) false = some [] ∧
    buildAst (.mk false [.dir "a" emptyDir] true) true = some [.dir "a" []] ∧
    (∀ elements printFiles,
      buildAst (.mk false elements true) printFiles =
        buildAst (.mk false elements false) printFiles) :=
  ⟨rfl, rfl, rfl, fun _ _ => by simp only [buildAst]⟩

/-- C17: the depth has no effect on the rendering: `getIndent` gives "└───" for
the last sibling and "├───" otherwise whatever the depth, and `RenderNode` and
`renderAst` return the same lines at any two depths.  What a line shows of the
nesting is the leads of its ancestors, "│\t" or "\t", and nothing else. -/
theorem C17_depth_irrelevant (ast : List Node) (d1 d2 : Nat) :
    (∀ d isLast, getIndent d isLast = if isLast then "└───" else "├───") ∧
    renderAst ast d1 = renderAst ast d2 ∧
    (∀ n isLast, RenderNode n d1 isLast = RenderNode n d2 isLast) ∧
    renderAst ast d1 =
      (entries ast).map
        (fun e => ancestorsLead e.ancestors ++ nodeLine e.node e.isLast) := by
  refine ⟨getIndent_eq, by rw [renderAst_eq_lines, renderAst_eq_lines], ?_,
    renderAst_eq_lines ast d1⟩
  intro n isLast
  cases n with
  | file name size => rw [RenderNode_file_eq, RenderNode_file_eq, getIndent_eq, getIndent_eq]
  | dir name cs =>
    rw [RenderNode_dir_eq, RenderNode_dir_eq, getIndent_eq, getIndent_eq,
      renderAst_eq_lines cs (d1 + 1), renderAst_eq_lines cs (d2 + 1)]

/-- C13, as stated, fails: `main` prints the argument vector before it checks
anything, so a failed run leaves that line on standard output.  Without a path
the run panics with the usage message after printing "[tree]"; on a path that
cannot be opened it panics in the scan after printing "[tree nope]". -/
theorem C13_counterexample :
    (runMain ["tree"] (fun _ => emptyDir)).exit = .usagePanic ∧
    (runMain ["tree"] (fun _ => emptyDir)).stdout = "[tree]\n" ∧
    (runMain ["tree", "nope"] (fun _ => .mk true [] false)).exit = .scanPanic ∧
    (runMain ["tree", "nope"] (fun _ => .mk true [] false)).stdout = "[tree nope]\n" ∧
    "[tree]\n" ≠ "" ∧ "[tree nope]\n" ≠ "" := by
  refine ⟨?_, ?_, ?_, ?_, by decide, by decide⟩
  · rw [runMain_usage _ _ (by decide)]
  · rw [runMain_usage _ _ (by decide)]
    decide
  · rw [runMain_accepted _ _ (by decide)]
    rfl
  · rw [runMain_accepted _ _ (by decide)]
    simp only [List.getD_cons_succ, List.getD_cons_zero, buildAst, if_true]
    decide

/-- C13, amended: on every failed run (a panic for the usage, in the scan, or on
the error of `dirTree`) standard output holds the line with the argument
vector that `main` prints first, and nothing else: no part of the tree. -/
theorem C13_failed_run_output (osArgs : List String) (fs : String → FsDir)
    (h : (runMain osArgs fs).exit ≠ .returned) :
    (runMain osArgs fs).stdout = sprintArgs osArgs ++ "\n" := by
  by_cases hc : osArgs.length = 2 ∨ osArgs.length = 3
  · have hm := runMain_accepted osArgs fs hc
    cases hb : buildAst (fs (osArgs.getD 1 ""))
        (osArgs.length == 3 && osArgs.getD 2 "" == "-f") with
    | none =>
      rw [hb] at hm
      rw [hm]
    | some ast =>
      rw [hb] at hm
      rw [hm] at h
      exact absurd rfl h
  · rw [runMain_usage _ _ hc]

/-- Witness of C13: a run without a path. -/
theorem C13_failed_run_output_witness :
    (runMain ["tree"] (fun _ => emptyDir)).exit ≠ .returned ∧
    (runMain ["tree"] (fun _ => emptyDir)).stdout = sprintArgs ["tree"] ++ "\n" :=
  have h : (runMain ["tree"] (fun _ => emptyDir)).exit ≠ .returned := by
    rw [runMain_usage _ _ (by decide)]
    simp
  ⟨h, C13_failed_run_output ["tree"] (fun _ => emptyDir) h⟩

/-- C14, as stated, fails: on the empty directory `.` the run succeeds and
standard output is "[tree .]\n\n", the line with the argument vector followed
by the tree and its line break, whereas the tree and its line break alone are
"\n". -/
theorem C14_counterexample :
    (runMain ["tree", "."] (fun _ => emptyDir)).exit = .returned ∧
    (runMain ["tree", "."] (fun _ => emptyDir)).stdout = "[tree .]\n\n" ∧
    dirTree "" emptyDir false = some ("\n", none) ∧
    "[tree .]\n\n" ≠ "\n" := by
  have hb : buildAst emptyDir false = some [] := rfl
  have hr : renderAst [] 0 = [] := by simp [renderAst_eq, sortSlice]
  refine ⟨?_, ?_, ?_, by decide⟩
  · rw [runMain_accepted _ _ (by decide)]
    simp only [List.getD_cons_succ, List.getD_cons_zero, List.length_cons, List.length_nil,
      Nat.reduceAdd, Nat.reduceBEq, Bool.false_and, hb]
  · rw [runMain_accepted _ _ (by decide)]
    simp only [List.getD_cons_succ, List.getD_cons_zero, List.length_cons, List.length_nil,
      Nat.reduceAdd, Nat.reduceBEq, Bool.false_and, hb, hr]
    decide
  · rw [dirTree_eq, hb, Option.map_some', hr]
    decide

/-- C14, amended: on every successful run standard output is the line with the
argument vector that `main` prints first, followed by exactly the rendered tree
and one closing line break, and nothing else. -/
theorem C14_successful_run_output (osArgs : List String) (fs : String → FsDir)
    (h : (runMain osArgs fs).exit = .returned) :
    ∃ ast,
      buildAst (fs (osArgs.getD 1 "")) (osArgs.length == 3 && osArgs.getD 2 "" == "-f") =
        some ast ∧
      (runMain osArgs fs).stdout =
        sprintArgs osArgs ++ "\n" ++ String.intercalate "\n" (renderAst ast 0) ++ "\n" := by
  by_cases hc : osArgs.length = 2 ∨ osArgs.length = 3
  · have hm := runMain_accepted osArgs fs hc
    cases hb : buildAst (fs (osArgs.getD 1 ""))
        (osArgs.length == 3 && osArgs.getD 2 "" == "-f") with
    | none =>
      rw [hb] at hm
      rw [hm] at h
      cases h
    | some ast =>
      rw [hb] at hm
      rw [hm]
      exact ⟨ast, rfl, rfl⟩
  · rw [runMain_usage _ _ hc] at h
    cases h

/-- Witness of C14: the run on the empty directory `.`. -/
theorem C14_successful_run_output_witness :
    (runMain ["tree", "."] (fun _ => emptyDir)).exit = .returned ∧
    ∃ ast,
      buildAst emptyDir false = some ast ∧
      (runMain ["tree", "."] (fun _ => emptyDir)).stdout =
        sprintArgs ["tree", "."] ++ "\n" ++ String.intercalate "\n" (renderAst ast 0) ++
          "\n" :=
  have h : (runMain ["tree", "."] (fun _ => emptyDir)).exit = .returned := by
    rw [runMain_accepted _ _ (by decide)]
    rfl
  ⟨h, C14_successful_run_output ["tree", "."] (fun _ => emptyDir) h⟩

/-- C15, as stated, fails on longer argument vectors: with the arguments `.`,
`-f` and `x` the second argument is exactly "-f", yet the run panics with the
usage message and `dirTree` is never called, with or without files. -/
theorem C15_counterexample :
    (runMain ["tree", ".", "-f", "x"] (fun _ => emptyDir)).exit = .usagePanic ∧
    (runMain ["tree", ".", "-f", "x"] (fun _ => emptyDir)).calls = [] := by
  rw [runMain_usage _ _ (by decide)]
  exact ⟨rfl, rfl⟩

/-- C15, amended: for every argument vector with one or two arguments after the
program name, `dirTree` is called once, and with files included exactly when a
second argument is present and is the string "-f"; any other second argument
("-F", "--f", "f", the empty string) counts as no flag and is no usage error.
With three or more arguments the run panics with the usage message whatever
the second argument is. -/
theorem C15_flag_decides_files (prog path : String) (second : Option String)
    (fs : String → FsDir) :
    (runMain (prog :: path :: second.toList) fs).calls =
      [(path, decide (second = some "-f"))] ∧
    (runMain (prog :: path :: second.toList) fs).exit ≠ .usagePanic ∧
    (runMain [prog, path, "-F"] fs).calls = [(path, false)] ∧
    (runMain [prog, path, "--f"] fs).calls = [(path, false)] ∧
    (runMain [prog, path, "f"] fs).calls = [(path, false)] ∧
    (runMain [prog, path, ""] fs).calls = [(path, false)] ∧
    (∀ s x more, (runMain (prog :: path :: s :: x :: more) fs).exit = .usagePanic ∧
      (runMain (prog :: path :: s :: x :: more) fs).calls = []) := by
  have hacc : ∀ sec : Option String,
      (prog :: path :: sec.toList).length = 2 ∨ (prog :: path :: sec.toList).length = 3 := by
    intro sec
    cases sec <;> simp
  have hcalls : ∀ sec : Option String,
      (runMain (prog :: path :: sec.toList) fs).calls = [(path, decide (sec = some "-f"))] := by
    intro sec
    rw [runMain_accepted _ _ (hacc sec)]
    cases sec with
    | none => split <;> simp
    | some s => split <;> cases hs : s == "-f" <;> simp_all
  have hother : ∀ s : String, s ≠ "-f" → (runMain [prog, path, s] fs).calls = [(path, false)] := by
    intro s hs
    have h := hcalls (some s)
    simp only [Option.toList_some] at h
    rw [h]
    simp [hs]
  refine ⟨hcalls second, ?_, hother _ (by decide), hother _ (by decide), hother _ (by decide),
    hother _ (by decide), ?_⟩
  · rw [runMain_accepted _ _ (hacc second)]
    split <;> simp
  · intro s x more
    rw [runMain_usage _ _ (by simp)]
    exact ⟨rfl, rfl⟩

/-- C16: with no argument after the program name, or with four or more, the run
panics with the usage message before any access to the file system: `dirTree`,
and with it `buildAst`, is never called. -/
theorem C16_wrong_count_aborts (prog : String) (positional : List String)
    (fs : String → FsDir) (h : positional.length = 0 ∨ 4 ≤ positional.length) :
    (runMain (prog :: positional) fs).exit = .usagePanic ∧
    (runMain (prog :: positional) fs).calls = [] := by
  rw [runMain_usage _ _ (by simp only [List.length_cons]; omega)]
  exact ⟨rfl, rfl⟩

/-- Witness of C16: four arguments after the program name. -/
theorem C16_wrong_count_aborts_witness :
    ((["a", "b", "c", "d"] : List String).length = 0 ∨
      4 ≤ (["a", "b", "c", "d"] : List String).length) ∧
    (runMain ["tree", "a", "b", "c", "d"] (fun _ => emptyDir)).exit = .usagePanic ∧
    (runMain ["tree", "a", "b", "c", "d"] (fun _ => emptyDir)).calls = [] :=
  ⟨by decide, C16_wrong_count_aborts "tree" ["a", "b", "c", "d"] (fun _ => emptyDir)
    (by decide)⟩

/-- C19: `renderAst` returns as many lines as the forest has nodes, files and
directories at every depth, one line per node: the lines are those of the
entries of the forest, in order.  A file gives its one line; a directory gives
its line, immediately followed by the block of the lines of everything below
it; the output is the concatenation of these blocks over the sorted siblings.
The empty list gives no line. -/
theorem C19_one_line_per_node (ast : List Node) (d : Nat) :
    (renderAst ast d).length = countNodes ast ∧
    renderAst [] d = [] ∧
    (entries ast).length = countNodes ast ∧
    renderAst ast d = (entries ast).map Entry.line ∧
    (∀ name size isLast,
      RenderNode (.file name size) d isLast = [nodeLine (.file name size) isLast]) ∧
    (∀ name cs isLast, ∃ below,
      RenderNode (.dir name cs) d isLast = nodeLine (.dir name cs) isLast :: below ∧
      below = (renderAst cs (d + 1)).map (fun line => ancestorLead isLast ++ line) ∧
      below.length = countNodes cs) ∧
    renderAst ast d =
      ((sortSlice ast).enum.map fun p =>
        RenderNode p.2 d (p.1 == (sortSlice ast).length - 1)).flatten := by
  refine ⟨renderAst_length ast d, by simp [renderAst_eq, sortSlice], ?_,
    renderAst_eq_lines ast d, ?_, ?_, renderAst_eq ast d⟩
  · rw [← renderAst_length ast d, renderAst_eq_lines, List.length_map]
  · intro name size isLast
    rw [RenderNode_file_eq, getIndent_eq]
    rfl
  · intro name cs isLast
    refine ⟨_, ?_, rfl, by rw [List.length_map, renderAst_length]⟩
    rw [RenderNode_dir_eq, getIndent_eq]
    cases isLast <;> rfl

/-- C18, as stated, fails: `renderAst` sorts the slice it is given in place, and
`RenderNode` does the same to the children of a directory.  After rendering the
directories `b`, `a` (the second one holding the files `z`, `y`) the slice holds
`a`, `b`, and the children of `a` are `y`, `z`. -/
theorem C18_counterexample :
    (renderAstSt [.dir "b" [], .dir "a" [.file "z" 1, .file "y" 2]] 0).2 =
      [.dir "a" [.file "y" 2, .file "z" 1], .dir "b" []] ∧
    ([.dir "a" [.file "y" 2, .file "z" 1], .dir "b" []] : List Node) ≠
      [.dir "b" [], .dir "a" [.file "z" 1, .file "y" 2]] := by
  constructor
  · simp [renderAstSt_eq, RenderNodeSt_dir_eq, RenderNodeSt_file_eq, sortSlice, insertSorted,
      less, Node.GetName, List.enum, List.enumFrom]
  · simp

/-- C18, amended: rendering reorders the tree in place and does nothing else to
it.  After `renderAst` returns, the sequence passed in and the children
sequence of every directory in it hold the same nodes as before the call, each
sequence arranged in ascending order of name; the lines returned are those of
`renderAst`. -/
theorem C18_sorted_in_place (ast : List Node) (d : Nat) :
    PermTree ast (renderAstSt ast d).2 ∧
    AscendingTree (renderAstSt ast d).2 ∧
    (renderAstSt ast d).1 = renderAst ast d :=
  ⟨renderAstSt_permTree ast d, renderAstSt_ascending ast d, renderAstSt_lines ast d⟩
